import Mathlib

/-!
Verification of the QRFS repository (qrfs_core + qrfs_cli) against its
natural-language specification.

The Rust sources are shallowly embedded:
* machine integers (`u32`, `u16`) become `Nat` with an explicit `% 2 ^ 32`
  (resp. `% 2 ^ 16`) wherever the Rust computation can wrap;
* `Vec<u8>` becomes `List Nat` with every element `< 256`;
* fallible code returns `Option` or `Except`;
* `bincode` serialization of records is modelled as the identity on the
  record list (the library round-trips records losslessly), so on-disk
  record regions are represented by the decoded record list itself;
* the image-rendering / optical-code-detection primitives used by the
  codec (`qrcode`, `rqrr`, `image` crates) are opaque external
  collaborators per the spec; a rendered QR image is modelled as the
  payload string it carries (`QrImage`), and an undetectable /
  undecodable unit is modelled explicitly.

Base64 (the `base64` crate with the `STANDARD` and `URL_SAFE_NO_PAD`
engines) is modelled from RFC 4648: standard alphabet with mandatory
canonical padding for `STANDARD`, url-safe alphabet without padding for
`URL_SAFE_NO_PAD`, both rejecting non-canonical trailing bits.
-/

namespace Qrfs

/-- disk.rs: `pub const BLOCK_SIZE: usize = 128`. -/
def BLOCK_SIZE : Nat := 128

/-- disk.rs: `pub const QRFS_MAGIC: u32 = 0x5152_4653`. -/
def QRFS_MAGIC : Nat := 0x51524653

/-- disk.rs: `pub const QRFS_VERSION: u32 = 1`. -/
def QRFS_VERSION : Nat := 1

/-! ## Base64 (RFC 4648, as used by the `base64` crate engines) -/

/-- The standard base64 alphabet, index `s` holds the character for sextet `s`. -/
def b64Alphabet : List Char :=
  [ 'A', 'B', 'C', 'D', 'E', 'F', 'G', 'H', 'I', 'J', 'K', 'L', 'M',
    'N', 'O', 'P', 'Q', 'R', 'S', 'T', 'U', 'V', 'W', 'X', 'Y', 'Z',
    'a', 'b', 'c', 'd', 'e', 'f', 'g', 'h', 'i', 'j', 'k', 'l', 'm',
    'n', 'o', 'p', 'q', 'r', 's', 't', 'u', 'v', 'w', 'x', 'y', 'z',
    '0', '1', '2', '3', '4', '5', '6', '7', '8', '9', '+', '/' ]

/-- The url-safe base64 alphabet (`-` and `_` replace `+` and `/`). -/
def b64UrlAlphabet : List Char :=
  [ 'A', 'B', 'C', 'D', 'E', 'F', 'G', 'H', 'I', 'J', 'K', 'L', 'M',
    'N', 'O', 'P', 'Q', 'R', 'S', 'T', 'U', 'V', 'W', 'X', 'Y', 'Z',
    'a', 'b', 'c', 'd', 'e', 'f', 'g', 'h', 'i', 'j', 'k', 'l', 'm',
    'n', 'o', 'p', 'q', 'r', 's', 't', 'u', 'v', 'w', 'x', 'y', 'z',
    '0', '1', '2', '3', '4', '5', '6', '7', '8', '9', '-', '_' ]

/-- Character for a sextet in the standard alphabet. -/
def b64Char (s : Nat) : Char := b64Alphabet.getD s 'A'

/-- Sextet for a character in the standard alphabet (`none` if invalid). -/
def b64Sextet (c : Char) : Option Nat := b64Alphabet.indexOf? c

/-- Sextet for a character in the url-safe alphabet (`none` if invalid). -/
def b64UrlSextet (c : Char) : Option Nat := b64UrlAlphabet.indexOf? c

/-- RFC 4648 standard base64 encoding of a byte list, with padding
(the `STANDARD` engine's encode). -/
def b64Encode : List Nat → List Char
  | [] => []
  | [a] => [b64Char (a / 4), b64Char (a % 4 * 16), '=', '=']
  | [a, b] => [b64Char (a / 4), b64Char (a % 4 * 16 + b / 16),
               b64Char (b % 16 * 4), '=']
  | a :: b :: c :: rest =>
      b64Char (a / 4) :: b64Char (a % 4 * 16 + b / 16) ::
      b64Char (b % 16 * 4 + c / 64) :: b64Char (c % 64) :: b64Encode rest

/-- RFC 4648 standard base64 decoding: mandatory canonical padding,
non-alphabet characters and non-zero trailing bits rejected (the
`STANDARD` engine's strict decode). -/
def b64DecodeStd : List Char → Option (List Nat)
  | [] => some []
  | c1 :: c2 :: c3 :: c4 :: rest =>
      match b64Sextet c1, b64Sextet c2 with
      | some s1, some s2 =>
          if c3 = '=' ∧ c4 = '=' ∧ rest = [] then
            if s2 % 16 = 0 then some [s1 * 4 + s2 / 16] else none
          else if c4 = '=' ∧ rest = [] then
            match b64Sextet c3 with
            | some s3 =>
                if s3 % 4 = 0 then
                  some [s1 * 4 + s2 / 16, s2 % 16 * 16 + s3 / 4]
                else none
            | none => none
          else
            match b64Sextet c3, b64Sextet c4, b64DecodeStd rest with
            | some s3, some s4, some bs =>
                some ((s1 * 4 + s2 / 16) :: (s2 % 16 * 16 + s3 / 4) ::
                      (s3 % 4 * 64 + s4) :: bs)
            | _, _, _ => none
      | _, _ => none
  | _ => none

/-- RFC 4648 url-safe base64 decoding without padding (the
`URL_SAFE_NO_PAD` engine's strict decode). -/
def b64DecodeUrl : List Char → Option (List Nat)
  | [] => some []
  | [_] => none
  | [c1, c2] =>
      match b64UrlSextet c1, b64UrlSextet c2 with
      | some s1, some s2 =>
          if s2 % 16 = 0 then some [s1 * 4 + s2 / 16] else none
      | _, _ => none
  | [c1, c2, c3] =>
      match b64UrlSextet c1, b64UrlSextet c2, b64UrlSextet c3 with
      | some s1, some s2, some s3 =>
          if s3 % 4 = 0 then
            some [s1 * 4 + s2 / 16, s2 % 16 * 16 + s3 / 4]
          else none
      | _, _, _ => none
  | c1 :: c2 :: c3 :: c4 :: rest =>
      match b64UrlSextet c1, b64UrlSextet c2, b64UrlSextet c3,
            b64UrlSextet c4, b64DecodeUrl rest with
      | some s1, some s2, some s3, some s4, some bs =>
          some ((s1 * 4 + s2 / 16) :: (s2 % 16 * 16 + s3 / 4) ::
                (s3 % 4 * 64 + s4) :: bs)
      | _, _, _, _, _ => none

/-! ## qr.rs — block codec

A rendered optical image is opaque to the spec; `QrImage` models exactly
what the codec contract depends on: the text payload the QR carries, or
`none` for an image in which no code can be detected. -/

/-- An optical-code image, modelled by the payload string it carries
(`none`: no detectable code, the `grids.is_empty()` case). -/
structure QrImage where
  content : Option (List Char)
  deriving DecidableEq, Repr

/-- Decode failures of `decode_qr_to_block` (both surfaced as
`QrfsError::Other` strings in the source). -/
inductive QrDecodeError
  | noCode
  | badBase64
  deriving DecidableEq, Repr

/-- qr.rs `encode_block_to_qr`: bytes → standard base64 → QR image.
The QR rendering itself is the opaque optical primitive; the image
carries the base64 text. -/
def encode_block_to_qr (data : List Nat) : QrImage :=
  ⟨some (b64Encode data)⟩

/-- qr.rs `decode_qr_to_block`: detect the code, then decode its content
with the standard base64 engine only. -/
def decode_qr_to_block (img : QrImage) : Except QrDecodeError (List Nat) :=
  match img.content with
  | none => .error .noCode
  | some s =>
      match b64DecodeStd s with
      | some d => .ok d
      | none => .error .badBase64

/-! ## server.rs — upload_block payload decode

`serde_json` parsing is abstracted to its outcome: `none` when the
content is not JSON, `some none` for JSON without a string `"data"`
field, `some (some s)` for a JSON envelope whose `"data"` field is `s`. -/

/-- Error replies of `upload_block`. -/
inductive UploadError
  | corruptQr
  | missingDataField
  deriving DecidableEq, Repr

/-- server.rs `upload_block`, the payload-to-bytes part: JSON envelope
first (standard then url-safe base64 of its `data` field); otherwise the
raw content as standard then url-safe base64. -/
def upload_block_decode (jsonView : Option (Option (List Char)))
    (content : List Char) : Except UploadError (List Nat) :=
  match jsonView with
  | some (some dataStr) =>
      match b64DecodeStd dataStr with
      | some b => .ok b
      | none =>
          match b64DecodeUrl dataStr with
          | some b => .ok b
          | none => .error .corruptQr
  | some none => .error .missingDataField
  | none =>
      match b64DecodeStd content with
      | some b => .ok b
      | none =>
          match b64DecodeUrl content with
          | some b => .ok b
          | none => .error .corruptQr

/-! ## disk.rs — inode records and superblock -/

/-- disk.rs `InodeKind`. -/
inductive InodeKind
  | File
  | Directory
  deriving DecidableEq, Repr

/-- disk.rs `Inode` (u32/u16/u64 fields as `Nat`). -/
structure Inode where
  id : Nat
  kind : InodeKind
  size : Nat
  blocks : List Nat
  mode : Nat
  created_at : Nat
  modified_at : Nat
  deriving DecidableEq, Repr

/-- disk.rs `Inode::new`: fresh record with mode `0o755 = 493`; the
`SystemTime::now()` timestamp is passed in as `now`. -/
def Inode.new (now id : Nat) (kind : InodeKind) : Inode :=
  ⟨id, kind, 0, [], 493, now, now⟩

/-- disk.rs `Superblock` (all u32 fields as `Nat`). -/
structure Superblock where
  magic : Nat
  version : Nat
  block_size : Nat
  total_blocks : Nat
  free_map_start : Nat
  free_map_blocks : Nat
  inode_table_start : Nat
  inode_count : Nat
  inode_table_blocks : Nat
  root_inode : Nat
  data_block_start : Nat
  deriving DecidableEq, Repr

/-- The u32 modulus. -/
def U32 : Nat := 2 ^ 32

/-- disk.rs `Superblock::new`: derive the region layout from
`(total_blocks, inode_count)`; u32 arithmetic wraps at `2 ^ 32`. -/
def Superblock.new (total_blocks inode_count : Nat) : Superblock :=
  let block_size := 128
  let free_map_start := 1
  let free_map_blocks := 1
  let inode_table_start := (free_map_start + free_map_blocks) % U32
  let bytes_per_inode := 80
  let total_inode_bytes := inode_count * bytes_per_inode % U32
  let inode_table_blocks :=
    (total_inode_bytes + block_size - 1) % U32 / block_size
  let data_block_start := (inode_table_start + inode_table_blocks) % U32
  { magic := QRFS_MAGIC
    version := QRFS_VERSION
    block_size := block_size
    total_blocks := total_blocks
    free_map_start := free_map_start
    free_map_blocks := free_map_blocks
    inode_table_start := inode_table_start
    inode_count := inode_count
    inode_table_blocks := inode_table_blocks
    root_inode := 0
    data_block_start := data_block_start }

/-- disk.rs `Superblock::is_valid`. -/
def Superblock.is_valid (sb : Superblock) : Bool :=
  sb.magic == QRFS_MAGIC && sb.version == QRFS_VERSION

/-! ## fs_format.rs — format-time structures

`bincode` record serialization is modelled as the identity on record
lists, so `create_inode_table` yields the decoded record sequence. -/

/-- fs_format.rs `create_inode_table`: inode `i` is `Inode::new(i, kind)`
with `kind = Directory` for id 0 and `File` otherwise. -/
def create_inode_table (now count : Nat) : List Inode :=
  (List.range count).map
    (fun i => Inode.new now i (if i = 0 then .Directory else .File))

/-- fs_format.rs `create_empty_bitmap`: `ceil(total_blocks / 8)` zero
bytes. -/
def create_empty_bitmap (total_blocks : Nat) : List Nat :=
  List.replicate ((total_blocks + 7) / 8) 0

/-! ## fs.rs — mount-time inode load and inode-id allocation

The in-memory `HashMap<u32, Inode>` is modelled as an association list
with replace-on-insert semantics. -/

/-- Drop every binding of key `k` (helper for insert/remove). -/
def eraseKey (k : Nat) : List (Nat × Inode) → List (Nat × Inode)
  | [] => []
  | p :: t => if p.1 = k then eraseKey k t else p :: eraseKey k t

/-- `HashMap::insert` (replace-on-insert). -/
def insertA (k : Nat) (v : Inode) (m : List (Nat × Inode)) :
    List (Nat × Inode) :=
  (k, v) :: eraseKey k m

/-- `HashMap::get`. -/
def lookupA (k : Nat) : List (Nat × Inode) → Option Inode
  | [] => none
  | p :: t => if p.1 = k then some p.2 else lookupA k t

/-- `HashMap::remove` (dropping the returned value). -/
def removeA (k : Nat) (m : List (Nat × Inode)) : List (Nat × Inode) :=
  eraseKey k m

/-- fs.rs `QrfsFilesystem::new`, step 3: keep a decoded inode record iff
`inode.id == 0 || inode.mode != 0`. -/
def loadInodes (records : List Inode) : List (Nat × Inode) :=
  records.foldl
    (fun m ino =>
      if ino.id = 0 ∨ ino.mode ≠ 0 then insertA ino.id ino m else m) []

/-- fs.rs `find_free_inode_id`: first id in `[2, inode_count)` absent
from the in-memory map. -/
def find_free_inode_id (m : List (Nat × Inode)) (inode_count : Nat) :
    Option Nat :=
  ((List.range inode_count).drop 2).find? (fun i => (lookupA i m).isNone)

/-! ## fs.rs — bitmap allocator -/

/-- Bit of block `i` in a bitmap stored as one byte per eight blocks
(bit `i % 8` of byte `i / 8`), the layout used throughout the sources. -/
def getBit (bm : List Nat) (i : Nat) : Bool :=
  (bm.getD (i / 8) 0).testBit (i % 8)

/-- Inner bit loop of fs.rs `allocate_block` (`for bit_idx in 0..8`):
`none` means fall through to the next byte; `some none` means the whole
allocation returns `None` (`global_id >= total_blocks`); `some (some b)`
means bit `b` of this byte is claimed. -/
def allocFindBit (dataStart total byteIdx byte : Nat) :
    Nat → Nat → Option (Option Nat)
  | 0, _ => none
  | fuel + 1, bit =>
      if byteIdx * 8 + bit < dataStart then
        allocFindBit dataStart total byteIdx byte fuel (bit + 1)
      else if total ≤ byteIdx * 8 + bit then
        some none
      else if byte.testBit bit then
        allocFindBit dataStart total byteIdx byte fuel (bit + 1)
      else
        some (some bit)

/-- Outer byte loop of fs.rs `allocate_block`: skip `0xFF` bytes, else
scan the byte's bits; on success return the global id and the updated
bitmap (the claimed bit set via `|=`). -/
def allocGo (dataStart total : Nat) :
    List Nat → Nat → Option (Nat × List Nat)
  | [], _ => none
  | byte :: rest, byteIdx =>
      if byte = 255 then
        match allocGo dataStart total rest (byteIdx + 1) with
        | some (id, rest2) => some (id, byte :: rest2)
        | none => none
      else
        match allocFindBit dataStart total byteIdx byte 8 0 with
        | some (some bit) =>
            some (byteIdx * 8 + bit, (byte ||| 2 ^ bit) :: rest)
        | some none => none
        | none =>
            match allocGo dataStart total rest (byteIdx + 1) with
            | some (id, rest2) => some (id, byte :: rest2)
            | none => none

/-- fs.rs `allocate_block`, parametrized by the superblock fields it
reads (`data_block_start`, `total_blocks`). -/
def allocate_block (dataStart total : Nat) (bm : List Nat) :
    Option (Nat × List Nat) :=
  allocGo dataStart total bm 0

/-- Spec-side predicate for C4: every data-region bit covered by the
bitmap is set. -/
def dataRegionFull (dataStart total : Nat) (bm : List Nat) : Bool :=
  (List.range (bm.length * 8)).all
    (fun i => !(decide (dataStart ≤ i) && decide (i < total)) || getBit bm i)

/-! ## fsck.rs — bitmap/inode cross-check -/

/-- fsck.rs: membership of a block id in some inode's block list (the
`assigned_blocks` HashSet). -/
def blockAssigned (inodes : List Inode) (id : Nat) : Bool :=
  inodes.any (fun i => i.blocks.contains id)

/-- fsck.rs `check_bitmap_coherence` main loop (`for block_id in
data_block_start..total_blocks`), with the iteration count made
explicit: `rem` is the number of ids left to visit, starting from `id`.
The loop stops (`break`) at the first id not covered by the bitmap;
returns `(orphan_blocks, missing_blocks)`. -/
def coherenceGo (bm : List Nat) (inodes : List Inode) :
    Nat → Nat → List Nat × List Nat
  | 0, _ => ([], [])
  | rem + 1, id =>
      if id / 8 < bm.length then
        let used := getBit bm id
        let assigned := blockAssigned inodes id
        let r := coherenceGo bm inodes rem (id + 1)
        if used && !assigned then (id :: r.1, r.2)
        else if !used && assigned then (r.1, id :: r.2)
        else r
      else ([], [])

/-- fsck.rs `check_bitmap_coherence`. -/
def check_bitmap_coherence (bm : List Nat) (inodes : List Inode)
    (sb : Superblock) : List Nat × List Nat :=
  coherenceGo bm inodes (sb.total_blocks - sb.data_block_start)
    sb.data_block_start

/-! ## storage.rs — QrStorageManager::read_block

The persisted unit store is a function `disk : Nat → Option (Option
(List Nat))`: `none` means the backing PNG does not exist; `some none`
means the unit exists but cannot be decoded (unreadable image, no grid
detected, or grid decode failure); `some (some bytes)` means the unit
decodes to `bytes` (the `content.into_bytes()` result). -/

/-- storage.rs `QrStorageManager::read_block`: range check, zero-fill
for a missing unit, error for an undecodable one, and
truncate-then-pad-to-`block_size` for a decoded one. -/
def read_block (block_size total_blocks : Nat)
    (disk : Nat → Option (Option (List Nat))) (id : Nat) :
    Except String (List Nat) :=
  if total_blocks ≤ id then .error "block id fuera de rango"
  else
    match disk id with
    | none => .ok (List.replicate block_size 0)
    | some none => .error "no se detecto QR legible en la imagen"
    | some (some content) =>
        let d := content.take block_size
        .ok (d ++ List.replicate (block_size - d.length) 0)

/-! ## fs.rs — Filesystem::read

`stor` is the mounted block store: `stor b = some bytes` models a
successful `read_block`, `stor b = none` a storage error (`EIO`). -/

/-- One iteration body of fs.rs `read`: fetch `len` bytes at `cur` from
the single block `cur / 128` — the stored block's slice when it is long
enough, zeros when the block is short, zeros when the logical index has
no allocated block (sparse), `EIO` when the block store fails. -/
def readChunk (stor : Nat → Option (List Nat)) (blocks : List Nat)
    (cur len : Nat) : Except Unit (List Nat) :=
  if cur / 128 < blocks.length then
    match stor (blocks.getD (cur / 128) 0) with
    | some bd =>
        .ok (if cur % 128 + len ≤ bd.length
             then (bd.drop (cur % 128)).take len
             else List.replicate len 0)
    | none => .error ()
  else .ok (List.replicate len 0)

/-- Block-by-block loop of fs.rs `read` (`while current_offset <
end_offset`), with `BLOCK_SIZE = 128`.  `fuel` bounds the number of
iterations; every caller passes `fuel ≥ endOff - cur`, and each
iteration advances `cur` by `len ≥ 1`, so the exhaustion arm is never
reached from `fsRead`. -/
def readLoop (stor : Nat → Option (List Nat)) (blocks : List Nat) :
    Nat → Nat → Nat → Except Unit (List Nat)
  | 0, _, _ => .ok []
  | fuel + 1, endOff, cur =>
      if cur < endOff then
        match readChunk stor blocks cur
            (min (endOff - cur) (128 - cur % 128)) with
        | .ok c =>
            match readLoop stor blocks fuel endOff
                (cur + min (endOff - cur) (128 - cur % 128)) with
            | .ok r => .ok (c ++ r)
            | .error e => .error e
        | .error e => .error e
      else .ok []

/-- fs.rs `read`: empty result past end-of-file, otherwise read
`[offset, min(size, offset+len))` through the block list. -/
def fsRead (stor : Nat → Option (List Nat)) (inode : Inode)
    (offset size : Nat) : Except Unit (List Nat) :=
  if inode.size ≤ offset then .ok []
  else readLoop stor inode.blocks (min inode.size (offset + size))
    (min inode.size (offset + size)) offset

/-- Spec-side predicate for C8: every returned byte whose logical block
index has no allocated physical block is zero. -/
def sparseZeros (inode : Inode) (offset : Nat) (data : List Nat) : Bool :=
  (List.range data.length).all
    (fun i => !decide (inode.blocks.length ≤ (offset + i) / 128) ||
              (data.getD i 0 == 0))

/-! ## fs.rs — directory persistence, unlink, create

State of a mounted `QrfsFilesystem` (superblock, inode map, bitmap,
directory cache).  Persistence through the block store is recorded as a
trace of events: one `writeData b` per directory data block written, and
one event per `save_bitmap` / `save_inode_table` call.  `bincode`
serialization of the directory-entry vector is abstracted as a
parameter `enc`. -/

instance {ε α : Type} [DecidableEq ε] [DecidableEq α] :
    DecidableEq (Except ε α) := fun x y =>
  match x, y with
  | .ok a, .ok b =>
      if h : a = b then isTrue (by rw [h])
      else isFalse (fun hh => by cases hh; exact h rfl)
  | .error e, .error f =>
      if h : e = f then isTrue (by rw [h])
      else isFalse (fun hh => by cases hh; exact h rfl)
  | .ok _, .error _ => isFalse (fun hh => by cases hh)
  | .error _, .ok _ => isFalse (fun hh => by cases hh)

/-- disk.rs `DirectoryEntry`. -/
structure DirectoryEntry where
  name : String
  inode_id : Nat
  kind : InodeKind
  deriving DecidableEq, Repr

/-- Persistence actions visible in the trace of an operation. -/
inductive PersistEvent
  | writeData (id : Nat)
  | saveBitmap
  | saveInodeTable
  deriving DecidableEq, Repr

/-- Mounted-filesystem state held by `QrfsFilesystem`. -/
structure FsState where
  superblock : Superblock
  inodes : List (Nat × Inode)
  bitmap : List Nat
  dir_cache : List (String × Nat)
  deriving DecidableEq, Repr

/-- `dir_cache` lookup (`HashMap::get`). -/
def lookupName (n : String) : List (String × Nat) → Option Nat
  | [] => none
  | p :: t => if p.1 = n then some p.2 else lookupName n t

/-- `dir_cache` removal (`HashMap::remove`). -/
def removeName (n : String) : List (String × Nat) → List (String × Nat)
  | [] => []
  | p :: t => if p.1 = n then removeName n t else p :: removeName n t

/-- `dir_cache` insertion (`HashMap::insert`). -/
def insertName (n : String) (id : Nat) (c : List (String × Nat)) :
    List (String × Nat) :=
  (n, id) :: removeName n c

/-- fs.rs `save_root_directory` step 1: `.` and `..` plus one entry per
cache element, with the kind read from the inode map (`File` fallback). -/
def dirEntries (st : FsState) : List DirectoryEntry :=
  let root_id := st.superblock.root_inode
  (⟨".", root_id, .Directory⟩ : DirectoryEntry) ::
  (⟨"..", root_id, .Directory⟩ : DirectoryEntry) ::
  st.dir_cache.map (fun p =>
    { name := p.1
      inode_id := p.2
      kind := match lookupA p.2 st.inodes with
              | some ino => ino.kind
              | none => .File })

/-- `k` successive `allocate_block` calls; stops early on disk-full
(flag `false`), keeping the bitmap mutations made so far. -/
def allocMany (dataStart total : Nat) (bm : List Nat) :
    Nat → List Nat × List Nat × Bool
  | 0 => ([], bm, true)
  | k + 1 =>
      match allocate_block dataStart total bm with
      | some (id, bm2) =>
          match allocMany dataStart total bm2 k with
          | (ids, bm3, ok) => (id :: ids, bm3, ok)
      | none => ([], bm, false)

/-- fs.rs `save_root_directory` step 4 (`while current_blocks.len() <
needed_blocks { allocate_block warning push }`): the loop allocates
exactly `needed - blocks.length` times (each iteration grows the list
by one), appending the claimed ids; on disk-full the blocks claimed so
far stay marked in the bitmap and the flag is `false` (the source's
early `Err` return). -/
def growBlocks (dataStart total : Nat) (bm blocks : List Nat)
    (needed : Nat) : List Nat × List Nat × Bool :=
  match allocMany dataStart total bm (needed - blocks.length) with
  | (ids, bm2, ok) => (blocks ++ ids, bm2, ok)

/-- fs.rs `save_root_directory`: serialize the entries, grow the root
block list if needed, write the data blocks, save the bitmap, update the
root inode (blocks/size/modified_at), save the inode table.  Returns the
new state, the persistence trace, and a success flag (`false`: disk full
before any write, or root inode missing — the source `unwrap` panic). -/
def save_root_directory (enc : List DirectoryEntry → List Nat)
    (now : Nat) (st : FsState) : FsState × List PersistEvent × Bool :=
  let root_id := st.superblock.root_inode
  match lookupA root_id st.inodes with
  | none => (st, [], false)
  | some rootInode =>
      let data := enc (dirEntries st)
      let block_size := st.superblock.block_size
      let needed := (data.length + block_size - 1) / block_size
      match growBlocks st.superblock.data_block_start
          st.superblock.total_blocks st.bitmap rootInode.blocks needed with
      | (blocks2, bm2, ok) =>
          if ok then
            let root2 := { rootInode with
                           blocks := blocks2
                           size := data.length
                           modified_at := now }
            ({ st with bitmap := bm2
                       inodes := insertA root_id root2 st.inodes },
             blocks2.map PersistEvent.writeData ++
               [PersistEvent.saveBitmap, PersistEvent.saveInodeTable],
             true)
          else ({ st with bitmap := bm2 }, [], false)

/-- fs.rs `unlink` bitmap release: clear bit `id % 8` of byte `id / 8`
when that byte exists (`byte_idx < self.bitmap.len()`). -/
def clearBlockBit (bm : List Nat) (id : Nat) : List Nat :=
  if id / 8 < bm.length then
    bm.set (id / 8) (bm.getD (id / 8) 0 &&& (255 ^^^ 2 ^ (id % 8)))
  else bm

/-- The release loop over an inode's block list. -/
def clearBits (bm : List Nat) (ids : List Nat) : List Nat :=
  ids.foldl clearBlockBit bm

/-- In-memory effect of fs.rs `unlink` before its persistence calls:
bitmap bits of the inode's blocks cleared, inode and cache entry
removed. -/
def unlinkPre (st : FsState) (name : String) (fid : Nat) (ino : Inode) :
    FsState :=
  { st with bitmap := clearBits st.bitmap ino.blocks
            inodes := removeA fid st.inodes
            dir_cache := removeName name st.dir_cache }

/-- fs.rs `unlink`: resolve the name, free the inode's blocks in the
bitmap, drop the inode and the cache entry, then persist the directory,
the bitmap and the inode table.  `.error ()` is the `ENOENT` reply. -/
def unlink (enc : List DirectoryEntry → List Nat) (now : Nat)
    (st : FsState) (name : String) :
    Except Unit (List PersistEvent) × FsState :=
  match lookupName name st.dir_cache with
  | none => (.error (), st)
  | some inode_id =>
      match lookupA inode_id st.inodes with
      | none => (.error (), st)
      | some ino =>
          match save_root_directory enc now
              (unlinkPre st name inode_id ino) with
          | (st2, ev, _ok) =>
              (.ok (ev ++ [PersistEvent.saveBitmap,
                           PersistEvent.saveInodeTable]), st2)

/-- Spec-side predicate for C9: every block id covered by the old bitmap
has its bit clear in the new bitmap. -/
def bitsCleared (ids old new : List Nat) : Bool :=
  ids.all (fun b => !decide (b / 8 < old.length) || !(getBit new b))

/-- fs.rs `save_inode_table`: re-serialize all `inode_count` slots in id
order, live entries as-is, absent ids as an `Inode::new(id, File)`
placeholder with `mode = 0`. -/
def save_inode_table (now : Nat) (m : List (Nat × Inode))
    (inode_count : Nat) : List Inode :=
  (List.range inode_count).map (fun id =>
    match lookupA id m with
    | some ino => ino
    | none => { Inode.new now id .File with mode := 0 })

/-- fs.rs `create`: pick the lowest free inode id, build the record with
`mode as u16` (low 16 bits), insert into the inode map and the directory
cache, persist the directory (failure only logged) and the inode table.
`.error ()` is the `ENOSPC` reply. -/
def createFile (enc : List DirectoryEntry → List Nat) (now : Nat)
    (st : FsState) (name : String) (mode : Nat) :
    Except Unit Nat × FsState × List PersistEvent :=
  match find_free_inode_id st.inodes st.superblock.inode_count with
  | none => (.error (), st, [])
  | some new_id =>
      let ino : Inode :=
        ⟨new_id, .File, 0, [], mode % 2 ^ 16, now, now⟩
      let st1 : FsState :=
        { st with inodes := insertA new_id ino st.inodes
                  dir_cache := insertName name new_id st.dir_cache }
      match save_root_directory enc now st1 with
      | (st2, ev, _ok) =>
          (.ok new_id, st2, ev ++ [PersistEvent.saveInodeTable])

/-! ## Concrete scenario states used by closed sub-claims -/

/-- A concrete directory-blob serializer (any function works for the
scenario; the driver only looks at the blob length). -/
def encC : List DirectoryEntry → List Nat := fun _ => List.replicate 10 7

/-- Root inode of the unlink scenario: one data block, id 6. -/
def rootC : Inode := ⟨0, .Directory, 10, [6], 493, 1, 1⟩

/-- A live file inode owning data block 5. -/
def fileC : Inode := ⟨2, .File, 3, [5], 420, 1, 1⟩

/-- Unlink scenario: 16-block volume, root plus one file `a`, bitmap
with blocks 0–6 used (reserved region 0–4, file block 5, root block 6). -/
def stC : FsState :=
  ⟨Superblock.new 16 4, [(0, rootC), (2, fileC)], [127, 0], [("a", 2)]⟩

/-- Root inode of the create scenario. -/
def rootC0 : Inode := ⟨0, .Directory, 0, [6], 493, 1, 1⟩

/-- Create scenario: empty root directory, no live files. -/
def stC0 : FsState :=
  ⟨Superblock.new 16 4, [(0, rootC0)], [127, 0], []⟩

/-! ## Proofs -/

theorem b64Sextet_b64Char (s : Nat) (hs : s < 64) :
    b64Sextet (b64Char s) = some s := by
  interval_cases s <;> decide

theorem b64Char_ne_eq (s : Nat) (hs : s < 64) : b64Char s ≠ '=' := by
  interval_cases s <;> decide

/-- Standard base64 round-trip on byte lists. -/
theorem b64DecodeStd_b64Encode (bs : List Nat) (h : ∀ x ∈ bs, x < 256) :
    b64DecodeStd (b64Encode bs) = some bs := by
  induction bs using b64Encode.induct with
  | case1 => rfl
  | case2 a =>
      have ha : a < 256 := h a (by simp)
      have h1 : a / 4 < 64 := by omega
      have h2 : a % 4 * 16 < 64 := by omega
      have hm : a % 4 * 16 % 16 = 0 := by omega
      have e1 : a / 4 * 4 + a % 4 * 16 / 16 = a := by omega
      simp [b64Encode, b64DecodeStd, b64Sextet_b64Char _ h1,
        b64Sextet_b64Char _ h2, hm, e1]
      omega
  | case3 a b =>
      have ha : a < 256 := h a (by simp)
      have hb : b < 256 := h b (by simp)
      have h1 : a / 4 < 64 := by omega
      have h2 : a % 4 * 16 + b / 16 < 64 := by omega
      have h3 : b % 16 * 4 < 64 := by omega
      have hm : b % 16 * 4 % 4 = 0 := by omega
      have e1 : a / 4 * 4 + (a % 4 * 16 + b / 16) / 16 = a := by omega
      have e2 : (a % 4 * 16 + b / 16) % 16 * 16 + b % 16 * 4 / 4 = b := by
        omega
      simp [b64Encode, b64DecodeStd, b64Sextet_b64Char _ h1,
        b64Sextet_b64Char _ h2, b64Sextet_b64Char _ h3,
        b64Char_ne_eq _ h3, hm, e1, e2]
      omega
  | case4 a b c rest ih =>
      have ha : a < 256 := h a (by simp)
      have hb : b < 256 := h b (by simp)
      have hc : c < 256 := h c (by simp)
      have h1 : a / 4 < 64 := by omega
      have h2 : a % 4 * 16 + b / 16 < 64 := by omega
      have h3 : b % 16 * 4 + c / 64 < 64 := by omega
      have h4 : c % 64 < 64 := by omega
      have ih2 := ih (fun x hx => h x (by simp [hx]))
      have e1 : a / 4 * 4 + (a % 4 * 16 + b / 16) / 16 = a := by omega
      have e2 : (a % 4 * 16 + b / 16) % 16 * 16 +
          (b % 16 * 4 + c / 64) / 4 = b := by omega
      have e3 : (b % 16 * 4 + c / 64) % 4 * 64 + c % 64 = c := by omega
      simp [b64Encode, b64DecodeStd, b64Sextet_b64Char _ h1,
        b64Sextet_b64Char _ h2, b64Sextet_b64Char _ h3,
        b64Sextet_b64Char _ h4, b64Char_ne_eq _ h3, b64Char_ne_eq _ h4,
        ih2, e1, e2, e3]


/-- C2: for every byte string `b` with `len(b) <= block_size` (128),
decoding the image produced by encoding `b` returns exactly `b`:
`decode_qr_to_block (encode_block_to_qr b) = ok b`. -/
theorem claim_C2_codec_roundtrip (b : List Nat) (hb : ∀ x ∈ b, x < 256)
    (_hlen : b.length ≤ BLOCK_SIZE) :
    decode_qr_to_block (encode_block_to_qr b) = .ok b := by
  simp [decode_qr_to_block, encode_block_to_qr, b64DecodeStd_b64Encode b hb]

theorem claim_C2_codec_roundtrip_witness :
    decode_qr_to_block (encode_block_to_qr [104, 111, 108, 97]) =
      .ok [104, 111, 108, 97] :=
  claim_C2_codec_roundtrip [104, 111, 108, 97] (by decide) (by decide)

/-- C3 counterexample: `decode_qr_to_block` does not attempt JSON-envelope
parsing nor a URL-safe base64 variant.  An image carrying the current
JSON wire format (whose `data` field decodes to `[0]`) is rejected, and
an image carrying URL-safe base64 of `[255]` is rejected too. -/
theorem claim_C3_image_decode_cex :
    decode_qr_to_block
        ⟨some ("\x7b\"block_id\":0,\"data\":\"AA==\"\x7d").toList⟩ =
      .error .badBase64 ∧
    b64DecodeStd ("AA==").toList = some [0] ∧
    decode_qr_to_block ⟨some ("_w").toList⟩ = .error .badBase64 ∧
    b64DecodeUrl ("_w").toList = some [255] := by decide

/-- C3 amended: the JSON-envelope-first / standard-base64 /
URL-safe-fallback chain is implemented by the HTTP upload decode
(`upload_block` in server.rs), not by the image decode: for the upload
payload, a JSON envelope's `data` field is decoded as standard then
URL-safe base64; a JSON payload without a `data` field errors without a
base64 fallback; a non-JSON payload is decoded as standard then URL-safe
base64 before erroring.  The image decode (`decode_qr_to_block`)
succeeds exactly on bare standard base64. -/
theorem claim_C3_upload_decode_chain
    (s1 c1 : List Char) (b1 : List Nat)
    (s2 c2 : List Char) (b2 : List Nat)
    (s3 c3 c4 : List Char)
    (r5 : List Char) (b5 : List Nat)
    (r6 : List Char) (b6 : List Nat)
    (r7 s8 : List Char) (b8 : List Nat)
    (h1 : b64DecodeStd s1 = some b1)
    (h2a : b64DecodeStd s2 = none) (h2b : b64DecodeUrl s2 = some b2)
    (h3a : b64DecodeStd s3 = none) (h3b : b64DecodeUrl s3 = none)
    (h5 : b64DecodeStd r5 = some b5)
    (h6a : b64DecodeStd r6 = none) (h6b : b64DecodeUrl r6 = some b6)
    (h7a : b64DecodeStd r7 = none) (h7b : b64DecodeUrl r7 = none) :
    upload_block_decode (some (some s1)) c1 = .ok b1 ∧
    upload_block_decode (some (some s2)) c2 = .ok b2 ∧
    upload_block_decode (some (some s3)) c3 = .error .corruptQr ∧
    upload_block_decode (some none) c4 = .error .missingDataField ∧
    upload_block_decode none r5 = .ok b5 ∧
    upload_block_decode none r6 = .ok b6 ∧
    upload_block_decode none r7 = .error .corruptQr ∧
    (decode_qr_to_block ⟨some s8⟩ = .ok b8 ↔ b64DecodeStd s8 = some b8) := by
  refine ⟨?_, ?_, ?_, ?_, ?_, ?_, ?_, ?_⟩
  · simp [upload_block_decode, h1]
  · simp [upload_block_decode, h2a, h2b]
  · simp [upload_block_decode, h3a, h3b]
  · simp [upload_block_decode]
  · simp [upload_block_decode, h5]
  · simp [upload_block_decode, h6a, h6b]
  · simp [upload_block_decode, h7a, h7b]
  · cases h : b64DecodeStd s8 <;> simp [decode_qr_to_block, h]

theorem claim_C3_upload_decode_chain_witness :
    upload_block_decode (some (some ("AA==").toList)) [] = .ok [0] ∧
    upload_block_decode (some (some ("_w").toList)) [] = .ok [255] ∧
    upload_block_decode (some (some ("!").toList)) [] =
      .error .corruptQr ∧
    upload_block_decode (some none) [] = .error .missingDataField ∧
    upload_block_decode none (("AA==").toList) = .ok [0] ∧
    upload_block_decode none (("_w").toList) = .ok [255] ∧
    upload_block_decode none (("!").toList) = .error .corruptQr ∧
    (decode_qr_to_block ⟨some ("AA==").toList⟩ = .ok [0] ↔
      b64DecodeStd ("AA==").toList = some [0]) :=
  claim_C3_upload_decode_chain _ [] [0] _ [] [255] _ [] [] _ [0] _ [255]
    _ _ [0] (by decide) (by decide) (by decide) (by decide) (by decide)
    (by decide) (by decide) (by decide) (by decide) (by decide)

/-- C6 counterexample: for `inode_count = 53687092` the u32 computation
`inode_count * bytes_per_inode` wraps (`53687092 * 80 = 2 ^ 32 + 64`), so
`inode_table_blocks = 1` instead of `ceil(inode_count * 80 / 128) =
33554433`, even though `total_blocks = 2 ^ 26` is large enough to fit the
true reserved regions (and the computed ones). -/
theorem claim_C6_layout_cex :
    (Superblock.new 67108864 53687092).inode_table_blocks = 1 ∧
    (53687092 * 80 + 127) / 128 = 33554433 ∧
    ¬ (Superblock.new 67108864 53687092).inode_table_blocks =
        (53687092 * 80 + 127) / 128 ∧
    (Superblock.new 67108864 53687092).data_block_start < 67108864 ∧
    2 + (53687092 * 80 + 127) / 128 < 67108864 := by decide

/-- C6 amended: for all `(total_blocks, inode_count)` such that the
inode-table byte count does not overflow u32
(`inode_count * 80 + 127 < 2 ^ 32`) and `total_blocks` is large enough to
fit the reserved regions, `Superblock::new` yields
`free_map_start >= 1`,
`inode_table_start >= free_map_start + free_map_blocks`,
`data_block_start >= inode_table_start + inode_table_blocks`,
`data_block_start < total_blocks`, and
`inode_table_blocks = ceil(inode_count * 80 / 128)`. -/
theorem claim_C6_layout_invariant (total_blocks inode_count : Nat)
    (hov : inode_count * 80 + 127 < U32)
    (hfit : 2 + (inode_count * 80 + 127) / 128 < total_blocks) :
    1 ≤ (Superblock.new total_blocks inode_count).free_map_start ∧
    (Superblock.new total_blocks inode_count).free_map_start +
        (Superblock.new total_blocks inode_count).free_map_blocks ≤
      (Superblock.new total_blocks inode_count).inode_table_start ∧
    (Superblock.new total_blocks inode_count).inode_table_start +
        (Superblock.new total_blocks inode_count).inode_table_blocks ≤
      (Superblock.new total_blocks inode_count).data_block_start ∧
    (Superblock.new total_blocks inode_count).data_block_start <
      (Superblock.new total_blocks inode_count).total_blocks ∧
    (Superblock.new total_blocks inode_count).inode_table_blocks =
      (inode_count * 80 + 127) / 128 := by
  simp only [Superblock.new, U32] at hov hfit ⊢
  have e1 : inode_count * 80 % 2 ^ 32 = inode_count * 80 :=
    Nat.mod_eq_of_lt (by omega)
  rw [e1]
  have e2 : (inode_count * 80 + 128 - 1) % 2 ^ 32 =
      inode_count * 80 + 128 - 1 := Nat.mod_eq_of_lt (by omega)
  rw [e2]
  have e3 : ((1 + 1) % 2 ^ 32 + (inode_count * 80 + 128 - 1) / 128) %
      2 ^ 32 = (1 + 1) % 2 ^ 32 + (inode_count * 80 + 128 - 1) / 128 :=
    Nat.mod_eq_of_lt (by omega)
  rw [e3]
  omega

theorem claim_C6_layout_invariant_witness :
    1 ≤ (Superblock.new 128 64).free_map_start ∧
    (Superblock.new 128 64).free_map_start +
        (Superblock.new 128 64).free_map_blocks ≤
      (Superblock.new 128 64).inode_table_start ∧
    (Superblock.new 128 64).inode_table_start +
        (Superblock.new 128 64).inode_table_blocks ≤
      (Superblock.new 128 64).data_block_start ∧
    (Superblock.new 128 64).data_block_start <
      (Superblock.new 128 64).total_blocks ∧
    (Superblock.new 128 64).inode_table_blocks = (64 * 80 + 127) / 128 :=
  claim_C6_layout_invariant 128 64 (by decide) (by decide)

/-- C1: at format time `create_inode_table` builds every inode through
`Inode::new`, so every record — root included, but also every non-root
slot — carries mode `0o755 = 493`, not the mode-0 free-placeholder the
spec (and the mount loader's own `mode == 0` free convention) requires.
Consequence at the mkfs default `inode_count = 64`: the mount-time load
keeps all 64 records live and `find_free_inode_id` finds no free id. -/
theorem claim_C1_format_placeholders_bug :
    (create_inode_table 1 64).all (fun ino => ino.mode == 493) = true ∧
    (lookupA 0 (loadInodes (create_inode_table 1 64))).map Inode.kind =
      some InodeKind.Directory ∧
    find_free_inode_id (loadInodes (create_inode_table 1 64)) 64 =
      none := by decide

/-- C7: for a block id in range whose backing unit does not exist,
`read_block` returns `Ok` with a zero-filled buffer of exactly
`block_size` bytes; for an existing unit that cannot be decoded it
returns an error. -/
theorem claim_C7_read_missing_block (block_size total_blocks : Nat)
    (disk : Nat → Option (Option (List Nat))) (id1 id2 : Nat)
    (h1 : id1 < total_blocks) (h2 : disk id1 = none)
    (h3 : id2 < total_blocks) (h4 : disk id2 = some none) :
    read_block block_size total_blocks disk id1 =
      .ok (List.replicate block_size 0) ∧
    (List.replicate block_size (0 : Nat)).length = block_size ∧
    read_block block_size total_blocks disk id2 =
      .error "no se detecto QR legible en la imagen" := by
  refine ⟨?_, by simp, ?_⟩ <;>
    simp [read_block, h2, h4, Nat.not_le.mpr h1, Nat.not_le.mpr h3]

theorem claim_C7_read_missing_block_witness :
    read_block 128 16 (fun b => if b = 3 then some none else none) 5 =
      .ok (List.replicate 128 0) ∧
    (List.replicate 128 (0 : Nat)).length = 128 ∧
    read_block 128 16 (fun b => if b = 3 then some none else none) 3 =
      .error "no se detecto QR legible en la imagen" :=
  claim_C7_read_missing_block 128 16 _ 5 3 (by decide) (by decide)
    (by decide) (by decide)



theorem lookupA_eraseKey (k id : Nat) (m : List (Nat × Inode))
    (h : k ≠ id) : lookupA id (eraseKey k m) = lookupA id m := by
  induction m with
  | nil => rfl
  | cons p t ih =>
      by_cases hp : p.1 = k
      · simp [eraseKey, lookupA, hp, h, ih]
      · by_cases hid : p.1 = id <;>
          simp [eraseKey, lookupA, hp, hid, ih, h, Ne.symm h]

theorem lookupA_insertA (k id : Nat) (v : Inode) (m : List (Nat × Inode)) :
    lookupA id (insertA k v m) =
      if k = id then some v else lookupA id m := by
  by_cases h : k = id
  · subst h
    simp [insertA, lookupA]
  · simp [insertA, lookupA, h, lookupA_eraseKey k id m h]

theorem lookupA_loadInodes_aux (records : List Inode) (id : Nat) :
    ∀ m : List (Nat × Inode),
    (lookupA id (records.foldl
      (fun m ino =>
        if ino.id = 0 ∨ ino.mode ≠ 0 then insertA ino.id ino m else m)
      m)).isSome =
    ((lookupA id m).isSome ||
      records.any (fun r => r.id == id && (r.id == 0 || r.mode != 0))) := by
  induction records with
  | nil => intro m; simp
  | cons r t ih =>
      intro m
      simp only [List.foldl_cons, List.any_cons]
      by_cases hc : r.id = 0 ∨ r.mode ≠ 0
      · rw [if_pos hc, ih]
        have hb : (r.id == 0 || r.mode != 0) = true := by
          rcases hc with hc | hc <;> simp [hc]
        by_cases hid : r.id = id
        · have h1 : (lookupA id (insertA r.id r m)).isSome = true := by
            rw [lookupA_insertA, if_pos hid]
            rfl
          have hbeq : (r.id == id) = true := by simp [hid]
          have h2 : (r.id == id && (r.id == 0 || r.mode != 0)) = true := by
            rw [hbeq, hb]
            rfl
          rw [h1, h2]
          simp
        · have h1 : lookupA id (insertA r.id r m) = lookupA id m := by
            rw [lookupA_insertA, if_neg hid]
          have h3 : (r.id == id) = false := by simp [hid]
          rw [h1, h3]
          simp
      · rw [if_neg hc, ih]
        push_neg at hc
        have h2 : (r.id == 0 || r.mode != 0) = false := by
          simp [hc.1, hc.2]
        rw [h2]
        simp

/-- C10: the mount-time load keeps an on-disk inode record exactly when
its id is 0 or its mode is non-zero; `create` stores `mode as u16`, so a
create with mode `0x10000` (low 16 bits zero) is accepted — the inode is
in the map with mode 0 and the name is in the cache — yet after the
table is saved and reloaded (a remount) the inode is gone. -/
theorem claim_C10_mode_zero_create_vanishes (records : List Inode)
    (id : Nat) :
    ((lookupA id (loadInodes records)).isSome =
      records.any (fun r => r.id == id && (r.id == 0 || r.mode != 0))) ∧
    (createFile encC 3 stC0 "f" 65536).1 = .ok 2 ∧
    (lookupA 2 (createFile encC 3 stC0 "f" 65536).2.1.inodes).map
      Inode.mode = some 0 ∧
    lookupName "f" (createFile encC 3 stC0 "f" 65536).2.1.dir_cache =
      some 2 ∧
    lookupA 2 (loadInodes (save_inode_table 9
      (createFile encC 3 stC0 "f" 65536).2.1.inodes 4)) = none := by
  refine ⟨?_, by decide, by decide, by decide, by decide⟩
  have h := lookupA_loadInodes_aux records id []
  simpa [loadInodes, lookupA] using h


theorem coherenceGo_mem (bm : List Nat) (inodes : List Inode) :
    ∀ (rem id x : Nat),
    (x ∈ (coherenceGo bm inodes rem id).1 ↔
      id ≤ x ∧ x < id + rem ∧ x / 8 < bm.length ∧
      getBit bm x = true ∧ blockAssigned inodes x = false) ∧
    (x ∈ (coherenceGo bm inodes rem id).2 ↔
      id ≤ x ∧ x < id + rem ∧ x / 8 < bm.length ∧
      getBit bm x = false ∧ blockAssigned inodes x = true) := by
  intro rem
  induction rem with
  | zero =>
      intro id x
      constructor <;>
        · simp only [coherenceGo, List.not_mem_nil, false_iff]
          rintro ⟨a, b, -⟩
          omega
  | succ rem ih =>
      intro id x
      have ihm := ih (id + 1) x
      by_cases hcov : id / 8 < bm.length
      · cases hu : getBit bm id <;> cases ha : blockAssigned inodes id <;>
          simp only [coherenceGo, if_pos hcov, hu, ha, Bool.not_true,
            Bool.not_false, Bool.and_true, Bool.and_false, Bool.true_and,
            Bool.false_and, if_true, if_false, Bool.false_eq_true,
            List.mem_cons]
        · constructor
          · constructor
            · intro hx
              obtain ⟨a, b, c, d, e⟩ := ihm.1.mp hx
              exact ⟨by omega, by omega, c, d, e⟩
            · rintro ⟨a, b, c, d, e⟩
              apply ihm.1.mpr
              have hne : x ≠ id := by
                intro hh
                rw [hh, hu] at d
                cases d
              exact ⟨by omega, by omega, c, d, e⟩
          · constructor
            · intro hx
              obtain ⟨a, b, c, d, e⟩ := ihm.2.mp hx
              exact ⟨by omega, by omega, c, d, e⟩
            · rintro ⟨a, b, c, d, e⟩
              apply ihm.2.mpr
              have hne : x ≠ id := by
                intro hh
                rw [hh] at e
                rw [e] at ha
                cases ha
              exact ⟨by omega, by omega, c, d, e⟩
        · constructor
          · constructor
            · intro hx
              obtain ⟨a, b, c, d, e⟩ := ihm.1.mp hx
              exact ⟨by omega, by omega, c, d, e⟩
            · rintro ⟨a, b, c, d, e⟩
              apply ihm.1.mpr
              have hne : x ≠ id := by
                intro hh
                rw [hh] at e
                rw [e] at ha
                cases ha
              exact ⟨by omega, by omega, c, d, e⟩
          · constructor
            · intro hx
              rcases hx with rfl | hx
              · exact ⟨Nat.le_refl _, by omega, hcov, hu, ha⟩
              · obtain ⟨a, b, c, d, e⟩ := ihm.2.mp hx
                exact ⟨by omega, by omega, c, d, e⟩
            · rintro ⟨a, b, c, d, e⟩
              by_cases hxid : x = id
              · exact Or.inl hxid
              · exact Or.inr (ihm.2.mpr ⟨by omega, by omega, c, d, e⟩)
        · constructor
          · constructor
            · intro hx
              rcases hx with rfl | hx
              · exact ⟨Nat.le_refl _, by omega, hcov, hu, ha⟩
              · obtain ⟨a, b, c, d, e⟩ := ihm.1.mp hx
                exact ⟨by omega, by omega, c, d, e⟩
            · rintro ⟨a, b, c, d, e⟩
              by_cases hxid : x = id
              · exact Or.inl hxid
              · exact Or.inr (ihm.1.mpr ⟨by omega, by omega, c, d, e⟩)
          · constructor
            · intro hx
              obtain ⟨a, b, c, d, e⟩ := ihm.2.mp hx
              exact ⟨by omega, by omega, c, d, e⟩
            · rintro ⟨a, b, c, d, e⟩
              apply ihm.2.mpr
              have hne : x ≠ id := by
                intro hh
                rw [hh, hu] at d
                cases d
              exact ⟨by omega, by omega, c, d, e⟩
        · constructor
          · constructor
            · intro hx
              obtain ⟨a, b, c, d, e⟩ := ihm.1.mp hx
              exact ⟨by omega, by omega, c, d, e⟩
            · rintro ⟨a, b, c, d, e⟩
              apply ihm.1.mpr
              have hne : x ≠ id := by
                intro hh
                rw [hh] at e
                rw [ha] at e
                cases e
              exact ⟨by omega, by omega, c, d, e⟩
          · constructor
            · intro hx
              obtain ⟨a, b, c, d, e⟩ := ihm.2.mp hx
              exact ⟨by omega, by omega, c, d, e⟩
            · rintro ⟨a, b, c, d, e⟩
              apply ihm.2.mpr
              have hne : x ≠ id := by
                intro hh
                rw [hh, hu] at d
                cases d
              exact ⟨by omega, by omega, c, d, e⟩
      · constructor <;>
          · simp only [coherenceGo, if_neg hcov, List.not_mem_nil,
              false_iff]
            rintro ⟨a, -, c, -⟩
            have : id / 8 ≤ x / 8 := Nat.div_le_div_right a
            omega

/-- C5: for every bitmap, inode list and superblock, the checker
classifies a data-region block id covered by the bitmap as an orphan
exactly when its bit is set and no live inode references it, and as
missing exactly when some live inode references it and the bit is clear;
no id lands in both lists. -/
theorem claim_C5_coherence_classification (bm : List Nat)
    (inodes : List Inode) (sb : Superblock) (id : Nat) :
    (id ∈ (check_bitmap_coherence bm inodes sb).1 ↔
      sb.data_block_start ≤ id ∧ id < sb.total_blocks ∧
      id / 8 < bm.length ∧ getBit bm id = true ∧
      blockAssigned inodes id = false) ∧
    (id ∈ (check_bitmap_coherence bm inodes sb).2 ↔
      sb.data_block_start ≤ id ∧ id < sb.total_blocks ∧
      id / 8 < bm.length ∧ getBit bm id = false ∧
      blockAssigned inodes id = true) ∧
    ¬ (id ∈ (check_bitmap_coherence bm inodes sb).1 ∧
       id ∈ (check_bitmap_coherence bm inodes sb).2) := by
  have h := coherenceGo_mem bm inodes
    (sb.total_blocks - sb.data_block_start) sb.data_block_start id
  unfold check_bitmap_coherence
  refine ⟨?_, ?_, ?_⟩
  · rw [h.1]
    constructor <;> rintro ⟨a, b, c, d, e⟩ <;>
      exact ⟨a, by omega, c, d, e⟩
  · rw [h.2]
    constructor <;> rintro ⟨a, b, c, d, e⟩ <;>
      exact ⟨a, by omega, c, d, e⟩
  · rintro ⟨h1, h2⟩
    obtain ⟨-, -, -, d1, -⟩ := h.1.mp h1
    obtain ⟨-, -, -, d2, -⟩ := h.2.mp h2
    rw [d1] at d2
    cases d2

theorem getD_set_self (l : List Nat) (k v : Nat) (h : k < l.length) :
    (l.set k v).getD k 0 = v := by
  induction l generalizing k with
  | nil => simp at h
  | cons a t ih =>
      cases k with
      | zero => rfl
      | succ k => simpa using ih k (by simpa using h)

theorem testBit_255 (b : Nat) (hb : b < 8) : Nat.testBit 255 b = true := by
  interval_cases b <;> decide

theorem getBit_eq (bm : List Nat) (k b : Nat) (hb : b < 8) :
    getBit bm (k * 8 + b) = (bm.getD k 0).testBit b := by
  rw [getBit, show (k * 8 + b) / 8 = k by omega,
    show (k * 8 + b) % 8 = b by omega]

theorem allocFindBit_found (ds t bi byte : Nat) :
    ∀ fuel bit b, allocFindBit ds t bi byte fuel bit = some (some b) →
      bit ≤ b ∧ b < bit + fuel ∧ byte.testBit b = false ∧
      ds ≤ bi * 8 + b ∧ bi * 8 + b < t := by
  intro fuel
  induction fuel with
  | zero =>
      intro bit b h
      simp [allocFindBit] at h
  | succ fuel ih =>
      intro bit b h
      simp only [allocFindBit] at h
      by_cases c1 : bi * 8 + bit < ds
      · rw [if_pos c1] at h
        obtain ⟨p1, p2, p3, p4, p5⟩ := ih (bit + 1) b h
        exact ⟨by omega, by omega, p3, p4, p5⟩
      · rw [if_neg c1] at h
        by_cases c2 : t ≤ bi * 8 + bit
        · rw [if_pos c2] at h
          simp at h
        · rw [if_neg c2] at h
          cases c3 : byte.testBit bit with
          | true =>
              rw [c3] at h
              simp only [if_true] at h
              obtain ⟨p1, p2, p3, p4, p5⟩ := ih (bit + 1) b h
              exact ⟨by omega, by omega, p3, p4, p5⟩
          | false =>
              rw [c3] at h
              simp only [Bool.false_eq_true, if_false] at h
              have hb : b = bit := by
                have := h
                injection this with h2
                injection h2 with h3
                exact h3.symm
              subst hb
              exact ⟨Nat.le_refl _, by omega, c3, by omega, by omega⟩

theorem allocFindBit_none (ds t bi byte : Nat) :
    ∀ fuel bit, allocFindBit ds t bi byte fuel bit = none →
      ∀ j, bit ≤ j → j < bit + fuel →
        (bi * 8 + j < ds ∨ (byte.testBit j = true ∧ bi * 8 + j < t)) := by
  intro fuel
  induction fuel with
  | zero =>
      intro bit _ j h1 h2
      omega
  | succ fuel ih =>
      intro bit h j h1 h2
      simp only [allocFindBit] at h
      by_cases c1 : bi * 8 + bit < ds
      · rw [if_pos c1] at h
        by_cases hj : j = bit
        · exact Or.inl (by omega)
        · exact ih (bit + 1) h j (by omega) (by omega)
      · rw [if_neg c1] at h
        by_cases c2 : t ≤ bi * 8 + bit
        · rw [if_pos c2] at h
          simp at h
        · rw [if_neg c2] at h
          cases c3 : byte.testBit bit with
          | true =>
              rw [c3] at h
              simp only [if_true] at h
              by_cases hj : j = bit
              · subst hj
                exact Or.inr ⟨c3, by omega⟩
              · exact ih (bit + 1) h j (by omega) (by omega)
          | false =>
              rw [c3] at h
              simp at h

theorem allocFindBit_stop (ds t bi byte : Nat) :
    ∀ fuel bit, allocFindBit ds t bi byte fuel bit = some none →
      ∃ j, bit ≤ j ∧ j < bit + fuel ∧ t ≤ bi * 8 + j ∧
        ∀ j2, bit ≤ j2 → j2 < j →
          (bi * 8 + j2 < ds ∨ (byte.testBit j2 = true ∧ bi * 8 + j2 < t)) := by
  intro fuel
  induction fuel with
  | zero =>
      intro bit h
      simp [allocFindBit] at h
  | succ fuel ih =>
      intro bit h
      simp only [allocFindBit] at h
      by_cases c1 : bi * 8 + bit < ds
      · rw [if_pos c1] at h
        obtain ⟨j, p1, p2, p3, p4⟩ := ih (bit + 1) h
        refine ⟨j, by omega, by omega, p3, ?_⟩
        intro j2 hj2a hj2b
        by_cases hj2 : j2 = bit
        · exact Or.inl (by omega)
        · exact p4 j2 (by omega) hj2b
      · rw [if_neg c1] at h
        by_cases c2 : t ≤ bi * 8 + bit
        · refine ⟨bit, Nat.le_refl _, by omega, c2, ?_⟩
          intro j2 hj2a hj2b
          omega
        · rw [if_neg c2] at h
          cases c3 : byte.testBit bit with
          | true =>
              rw [c3] at h
              simp only [if_true] at h
              obtain ⟨j, p1, p2, p3, p4⟩ := ih (bit + 1) h
              refine ⟨j, by omega, by omega, p3, ?_⟩
              intro j2 hj2a hj2b
              by_cases hj2 : j2 = bit
              · subst hj2
                exact Or.inr ⟨c3, by omega⟩
              · exact p4 j2 (by omega) hj2b
          | false =>
              rw [c3] at h
              simp at h

theorem allocGo_found (ds t : Nat) (bm : List Nat) :
    ∀ (bi id : Nat) (bm2 : List Nat),
    allocGo ds t bm bi = some (id, bm2) →
    ∃ k b, k < bm.length ∧ b < 8 ∧ id = (bi + k) * 8 + b ∧
      (bm.getD k 0).testBit b = false ∧
      bm2 = bm.set k (bm.getD k 0 ||| 2 ^ b) ∧ ds ≤ id ∧ id < t := by
  induction bm with
  | nil =>
      intro bi id bm2 h
      simp [allocGo] at h
  | cons byte rest ih =>
      intro bi id bm2 h
      simp only [allocGo] at h
      by_cases h255 : byte = 255
      · rw [if_pos h255] at h
        cases hrec : allocGo ds t rest (bi + 1) with
        | none =>
            rw [hrec] at h
            simp at h
        | some pr =>
            obtain ⟨id2, rest2⟩ := pr
            rw [hrec] at h
            simp only [Option.some.injEq, Prod.mk.injEq] at h
            obtain ⟨hid, hbm⟩ := h
            obtain ⟨k, b, p1, p2, p3, p4, p5, p6, p7⟩ :=
              ih (bi + 1) id2 rest2 hrec
            refine ⟨k + 1, b, by simpa using p1, p2, by omega, ?_, ?_,
              by omega, by omega⟩
            · simpa using p4
            · rw [← hbm, p5]
              rfl
      · rw [if_neg h255] at h
        cases hf : allocFindBit ds t bi byte 8 0 with
        | none =>
            rw [hf] at h
            cases hrec : allocGo ds t rest (bi + 1) with
            | none =>
                rw [hrec] at h
                simp at h
            | some pr =>
                obtain ⟨id2, rest2⟩ := pr
                rw [hrec] at h
                simp only [Option.some.injEq, Prod.mk.injEq] at h
                obtain ⟨hid, hbm⟩ := h
                obtain ⟨k, b, p1, p2, p3, p4, p5, p6, p7⟩ :=
                  ih (bi + 1) id2 rest2 hrec
                refine ⟨k + 1, b, by simpa using p1, p2, by omega, ?_, ?_,
                  by omega, by omega⟩
                · simpa using p4
                · rw [← hbm, p5]
                  rfl
        | some ob =>
            cases ob with
            | none =>
                rw [hf] at h
                simp at h
            | some bit =>
                rw [hf] at h
                simp only [Option.some.injEq, Prod.mk.injEq] at h
                obtain ⟨hid, hbm⟩ := h
                obtain ⟨p1, p2, p3, p4, p5⟩ :=
                  allocFindBit_found ds t bi byte 8 0 bit hf
                refine ⟨0, bit, by simp, by omega, by omega, p3, ?_,
                  by omega, by omega⟩
                rw [← hbm]
                rfl

theorem allocGo_none_iff (ds t : Nat) (bm : List Nat) :
    ∀ bi, allocGo ds t bm bi = none ↔
      ∀ k b, k < bm.length → b < 8 → ds ≤ (bi + k) * 8 + b →
        (bi + k) * 8 + b < t → (bm.getD k 0).testBit b = true := by
  induction bm with
  | nil =>
      intro bi
      simp [allocGo]
  | cons byte rest ih =>
      intro bi
      simp only [allocGo]
      by_cases h255 : byte = 255
      · rw [if_pos h255]
        have hmatch :
            (match allocGo ds t rest (bi + 1) with
             | some (id, rest2) => some (id, byte :: rest2)
             | none => none) = none ↔
            allocGo ds t rest (bi + 1) = none := by
          cases allocGo ds t rest (bi + 1) with
          | none => simp
          | some pr =>
              obtain ⟨a, bb⟩ := pr
              simp
        rw [hmatch, ih (bi + 1)]
        constructor
        · intro hall k b hk hb hge hlt
          cases k with
          | zero =>
              simp only [List.getD_cons_zero, h255]
              exact testBit_255 b hb
          | succ k =>
              have := hall k b (by simpa using hk) hb (by omega) (by omega)
              simpa using this
        · intro hall k b hk hb hge hlt
          have := hall (k + 1) b (by simpa using hk) hb (by omega)
            (by omega)
          simpa using this
      · rw [if_neg h255]
        cases hf : allocFindBit ds t bi byte 8 0 with
        | none =>
            have hB := allocFindBit_none ds t bi byte 8 0 hf
            have hmatch :
                (match allocGo ds t rest (bi + 1) with
                 | some (id, rest2) => some (id, byte :: rest2)
                 | none => none) = none ↔
                allocGo ds t rest (bi + 1) = none := by
              cases allocGo ds t rest (bi + 1) with
              | none => simp
              | some pr =>
                  obtain ⟨a, bb⟩ := pr
                  simp
            rw [hmatch, ih (bi + 1)]
            constructor
            · intro hall k b hk hb hge hlt
              cases k with
              | zero =>
                  rcases hB b (Nat.zero_le _) (by omega) with hlow | ⟨ht, -⟩
                  · omega
                  · simpa using ht
              | succ k =>
                  have := hall k b (by simpa using hk) hb (by omega)
                    (by omega)
                  simpa using this
            · intro hall k b hk hb hge hlt
              have := hall (k + 1) b (by simpa using hk) hb (by omega)
                (by omega)
              simpa using this
        | some ob =>
            cases ob with
            | none =>
                obtain ⟨j, hj0, hj8, hjt, hpre⟩ :=
                  allocFindBit_stop ds t bi byte 8 0 hf
                constructor
                · intro _ k b hk hb hge hlt
                  cases k with
                  | zero =>
                      by_cases hbj : b < j
                      · rcases hpre b (Nat.zero_le _) hbj with hlow | ⟨ht, -⟩
                        · omega
                        · simpa using ht
                      · exfalso
                        omega
                  | succ k =>
                      exfalso
                      omega
                · intro _
                  rfl
            | some bit =>
                obtain ⟨p1, p2, p3, p4, p5⟩ :=
                  allocFindBit_found ds t bi byte 8 0 bit hf
                constructor
                · intro hh
                  simp at hh
                · intro hr
                  exfalso
                  have := hr 0 bit (by simp) (by omega) (by omega) (by omega)
                  simp only [List.getD_cons_zero] at this
                  rw [p3] at this
                  cases this

/-- C4: `allocate_block` only returns ids in
`[data_block_start, total_blocks)`; the claimed bit is set in the
returned bitmap, so a second allocate without an intervening free never
returns the same id; and it returns `None` exactly when every
data-region bit covered by the bitmap is already set. -/
theorem claim_C4_allocator (ds t id id2 : Nat)
    (bm bm2 bm3 bmq : List Nat)
    (h1 : allocate_block ds t bm = some (id, bm2))
    (h2 : allocate_block ds t bm2 = some (id2, bm3)) :
    (ds ≤ id ∧ id < t) ∧ getBit bm2 id = true ∧ id2 ≠ id ∧
    (allocate_block ds t bmq = none ↔ dataRegionFull ds t bmq = true) := by
  obtain ⟨k, b, hk, hb, hid, htb, hbm2, hds, hlt⟩ :=
    allocGo_found ds t bm 0 id bm2 h1
  have hset : getBit bm2 id = true := by
    rw [hid, show (0 + k) * 8 + b = k * 8 + b by omega, getBit_eq _ _ _ hb,
      hbm2, getD_set_self _ _ _ hk]
    simp [Nat.testBit_or, Nat.testBit_two_pow_self]
  refine ⟨⟨hds, hlt⟩, hset, ?_, ?_⟩
  · obtain ⟨k2, b2, hk2, hb2, hid2, htb2, -, -, -⟩ :=
      allocGo_found ds t bm2 0 id2 bm3 h2
    intro he
    have hclear : getBit bm2 id2 = false := by
      rw [hid2, show (0 + k2) * 8 + b2 = k2 * 8 + b2 by omega,
        getBit_eq _ _ _ hb2]
      exact htb2
    rw [he, hset] at hclear
    cases hclear
  · rw [allocate_block, allocGo_none_iff ds t bmq 0]
    constructor
    · intro hall
      simp only [dataRegionFull, List.all_eq_true, List.mem_range]
      intro i hi
      by_cases hd1 : ds ≤ i
      · by_cases hd2 : i < t
        · have := hall (i / 8) (i % 8) (by omega) (by omega) (by omega)
            (by omega)
          have hgb : getBit bmq i = true := this
          simp [hgb]
        · simp [hd2]
      · simp [hd1]
    · intro hfull k b hk hb hge hlt2
      simp only [dataRegionFull, List.all_eq_true, List.mem_range] at hfull
      have := hfull (k * 8 + b) (by omega)
      have hd1 : decide (ds ≤ k * 8 + b) = true := decide_eq_true (by omega)
      have hd2 : decide (k * 8 + b < t) = true := decide_eq_true (by omega)
      rw [hd1, hd2] at this
      simp only [Bool.and_self, Bool.not_true, Bool.false_or] at this
      rw [getBit_eq _ _ _ hb] at this
      exact this

theorem claim_C4_allocator_witness :
    ((2 ≤ 8 ∧ 8 < 16) ∧ getBit [255, 1] 8 = true ∧ 9 ≠ 8 ∧
      (allocate_block 2 16 [255, 255] = none ↔
        dataRegionFull 2 16 [255, 255] = true)) :=
  claim_C4_allocator 2 16 8 9 [255, 0] [255, 1] [255, 3] [255, 255]
    (by decide) (by decide)

theorem getD_replicate_zero (n i : Nat) :
    (List.replicate n (0 : Nat)).getD i 0 = 0 := by
  induction n generalizing i with
  | zero => cases i <;> rfl
  | succ n ih =>
      cases i with
      | zero => rfl
      | succ i => simp [ih i]

theorem readChunk_length (stor : Nat → Option (List Nat))
    (blocks : List Nat) (cur len : Nat) (c : List Nat)
    (h : readChunk stor blocks cur len = .ok c) : c.length = len := by
  unfold readChunk at h
  by_cases hb : cur / 128 < blocks.length
  · rw [if_pos hb] at h
    cases hs : stor (blocks.getD (cur / 128) 0) with
    | some bd =>
        rw [hs] at h
        simp only [Except.ok.injEq] at h
        subst h
        by_cases hl : cur % 128 + len ≤ bd.length
        · rw [if_pos hl]
          simp
          omega
        · rw [if_neg hl]
          simp
    | none =>
        rw [hs] at h
        simp at h
  · rw [if_neg hb] at h
    simp only [Except.ok.injEq] at h
    subst h
    simp

theorem readChunk_sparse (stor : Nat → Option (List Nat))
    (blocks : List Nat) (cur len : Nat) (c : List Nat)
    (h : readChunk stor blocks cur len = .ok c)
    (hout : blocks.length ≤ cur / 128) : c = List.replicate len 0 := by
  unfold readChunk at h
  rw [if_neg (by omega)] at h
  simp only [Except.ok.injEq] at h
  exact h.symm

theorem readLoop_length (stor : Nat → Option (List Nat))
    (blocks : List Nat) :
    ∀ fuel endOff cur data, endOff - cur ≤ fuel →
      readLoop stor blocks fuel endOff cur = .ok data →
      data.length = endOff - cur := by
  intro fuel
  induction fuel with
  | zero =>
      intro endOff cur data hf h
      simp only [readLoop, Except.ok.injEq] at h
      subst h
      simp
      omega
  | succ fuel ih =>
      intro endOff cur data hf h
      simp only [readLoop] at h
      by_cases hlt : cur < endOff
      · rw [if_pos hlt] at h
        cases hch : readChunk stor blocks cur
            (min (endOff - cur) (128 - cur % 128)) with
        | error e =>
            rw [hch] at h
            simp at h
        | ok c =>
            rw [hch] at h
            cases hrec : readLoop stor blocks fuel endOff
                (cur + min (endOff - cur) (128 - cur % 128)) with
            | error e =>
                rw [hrec] at h
                simp at h
            | ok r =>
                rw [hrec] at h
                simp only [Except.ok.injEq] at h
                subst h
                have hcl := readChunk_length stor blocks cur _ c hch
                have hmod : cur % 128 < 128 := Nat.mod_lt _ (by omega)
                have hrl := ih endOff
                  (cur + min (endOff - cur) (128 - cur % 128)) r
                  (by omega) hrec
                simp only [List.length_append]
                omega
      · rw [if_neg hlt] at h
        simp only [Except.ok.injEq] at h
        subst h
        simp
        omega

theorem readLoop_sparse (stor : Nat → Option (List Nat))
    (blocks : List Nat) :
    ∀ fuel endOff cur data, endOff - cur ≤ fuel →
      readLoop stor blocks fuel endOff cur = .ok data →
      ∀ i, i < data.length → blocks.length ≤ (cur + i) / 128 →
        data.getD i 0 = 0 := by
  intro fuel
  induction fuel with
  | zero =>
      intro endOff cur data hf h
      simp only [readLoop, Except.ok.injEq] at h
      subst h
      intro i hi
      simp at hi
  | succ fuel ih =>
      intro endOff cur data hf h
      simp only [readLoop] at h
      by_cases hlt : cur < endOff
      · rw [if_pos hlt] at h
        cases hch : readChunk stor blocks cur
            (min (endOff - cur) (128 - cur % 128)) with
        | error e =>
            rw [hch] at h
            simp at h
        | ok c =>
            rw [hch] at h
            cases hrec : readLoop stor blocks fuel endOff
                (cur + min (endOff - cur) (128 - cur % 128)) with
            | error e =>
                rw [hrec] at h
                simp at h
            | ok r =>
                rw [hrec] at h
                simp only [Except.ok.injEq] at h
                subst h
                intro i hi hout
                have hcl := readChunk_length stor blocks cur _ c hch
                have hmod : cur % 128 < 128 := Nat.mod_lt _ (by omega)
                by_cases hic : i < c.length
                · have hdiv : (cur + i) / 128 = cur / 128 := by
                    have : i < 128 - cur % 128 := by omega
                    omega
                  have hzero : c = List.replicate
                      (min (endOff - cur) (128 - cur % 128)) 0 :=
                    readChunk_sparse stor blocks cur _ c hch (by omega)
                  rw [List.getD_append _ _ _ _ hic, hzero,
                    getD_replicate_zero]
                · have hge : c.length ≤ i := by omega
                  rw [List.getD_append_right _ _ _ _ hge]
                  apply ih endOff
                    (cur + min (endOff - cur) (128 - cur % 128)) r
                    (by omega) hrec
                  · simp only [List.length_append] at hi
                    omega
                  · have : cur + i =
                        cur + min (endOff - cur) (128 - cur % 128) +
                          (i - c.length) := by omega
                    rw [← hcl]
                    omega
      · rw [if_neg hlt] at h
        simp only [Except.ok.injEq] at h
        subst h
        intro i hi
        simp at hi

/-- C8: a successful `read(id, offset, len)` returns at most `len` bytes
and never bytes past the inode's size (at most `size - offset`); every
returned byte whose logical block index has no allocated physical block
is zero; and a read at `offset ≥ size` returns the empty byte string,
not an error. -/
theorem claim_C8_read_bounds_sparse (stor : Nat → Option (List Nat))
    (inode : Inode) (offset size : Nat) (data : List Nat)
    (offset2 size2 : Nat)
    (h : fsRead stor inode offset size = .ok data)
    (h2 : inode.size ≤ offset2) :
    data.length ≤ size ∧ data.length ≤ inode.size - offset ∧
    sparseZeros inode offset data = true ∧
    fsRead stor inode offset2 size2 = .ok [] := by
  have hempty : fsRead stor inode offset2 size2 = .ok [] := by
    rw [fsRead, if_pos h2]
  unfold fsRead at h
  by_cases hoff : inode.size ≤ offset
  · rw [if_pos hoff] at h
    simp only [Except.ok.injEq] at h
    subst h
    refine ⟨by simp, by simp, by simp [sparseZeros], hempty⟩
  · rw [if_neg hoff] at h
    have hlen := readLoop_length stor inode.blocks
      (min inode.size (offset + size)) (min inode.size (offset + size))
      offset data (by omega) h
    have hsp := readLoop_sparse stor inode.blocks
      (min inode.size (offset + size)) (min inode.size (offset + size))
      offset data (by omega) h
    refine ⟨by omega, by omega, ?_, hempty⟩
    simp only [sparseZeros, List.all_eq_true, List.mem_range]
    intro i hi
    by_cases hbl : inode.blocks.length ≤ (offset + i) / 128
    · have hz := hsp i hi hbl
      rw [hz]
      simp
    · simp [hbl]

set_option maxRecDepth 20000 in
theorem claim_C8_read_bounds_sparse_witness :
    (List.replicate 128 5 ++ List.replicate 72 0).length ≤ 300 ∧
    (List.replicate 128 5 ++ List.replicate 72 0).length ≤ 200 - 0 ∧
    sparseZeros ⟨3, .File, 200, [9], 420, 1, 1⟩ 0
      (List.replicate 128 5 ++ List.replicate 72 0) = true ∧
    fsRead (fun _ => some (List.replicate 128 5))
      ⟨3, .File, 200, [9], 420, 1, 1⟩ 200 4 = .ok [] :=
  claim_C8_read_bounds_sparse (fun _ => some (List.replicate 128 5))
    ⟨3, .File, 200, [9], 420, 1, 1⟩ 0 300
    (List.replicate 128 5 ++ List.replicate 72 0) 200 4
    (by decide) (by decide)

theorem clearBlockBit_length (bm : List Nat) (id : Nat) :
    (clearBlockBit bm id).length = bm.length := by
  unfold clearBlockBit
  by_cases h : id / 8 < bm.length
  · rw [if_pos h]
    simp
  · rw [if_neg h]

theorem getD_set_ne (l : List Nat) (k j v : Nat) (h : j ≠ k) :
    (l.set k v).getD j 0 = l.getD j 0 := by
  induction l generalizing k j with
  | nil => rfl
  | cons a t ih =>
      cases k with
      | zero =>
          cases j with
          | zero => exact absurd rfl h
          | succ j => simp
      | succ k =>
          cases j with
          | zero => simp
          | succ j => simpa using ih k j (by omega)

theorem getBit_clearBlockBit_self (bm : List Nat) (id : Nat)
    (h : id / 8 < bm.length) :
    getBit (clearBlockBit bm id) id = false := by
  unfold clearBlockBit
  rw [if_pos h, getBit, getD_set_self _ _ _ h]
  rw [Nat.testBit_and, Nat.testBit_xor, Nat.testBit_two_pow_self,
    testBit_255 _ (Nat.mod_lt _ (by omega))]
  simp

theorem getBit_clearBlockBit_false (bm : List Nat) (id2 x : Nat)
    (h : getBit bm x = false) :
    getBit (clearBlockBit bm id2) x = false := by
  unfold clearBlockBit
  by_cases hcov : id2 / 8 < bm.length
  · rw [if_pos hcov]
    by_cases hx : x / 8 = id2 / 8
    · rw [getBit, hx, getD_set_self _ _ _ hcov, Nat.testBit_and]
      rw [getBit, hx] at h
      rw [h]
      simp
    · rw [getBit, getD_set_ne _ _ _ _ hx]
      exact h
  · rw [if_neg hcov]
    exact h

theorem clearBits_preserves_false (ids : List Nat) :
    ∀ bm b, getBit bm b = false → getBit (clearBits bm ids) b = false := by
  induction ids with
  | nil => intro bm b h; exact h
  | cons id2 t ih =>
      intro bm b h
      exact ih (clearBlockBit bm id2) b (getBit_clearBlockBit_false bm id2 b h)

theorem clearBits_length (ids : List Nat) :
    ∀ bm, (clearBits bm ids).length = bm.length := by
  induction ids with
  | nil => intro bm; rfl
  | cons id2 t ih =>
      intro bm
      rw [clearBits, List.foldl_cons]
      have := ih (clearBlockBit bm id2)
      rw [clearBits] at this
      rw [this, clearBlockBit_length]

theorem clearBits_clears (ids : List Nat) :
    ∀ bm b, b ∈ ids → b / 8 < bm.length →
      getBit (clearBits bm ids) b = false := by
  induction ids with
  | nil => intro bm b h; simp at h
  | cons id2 t ih =>
      intro bm b hb hcov
      rw [clearBits, List.foldl_cons]
      rcases List.mem_cons.mp hb with rfl | hbt
      · exact clearBits_preserves_false t (clearBlockBit bm b) b
          (getBit_clearBlockBit_self bm b hcov)
      · have := ih (clearBlockBit bm id2) b hbt
          (by rw [clearBlockBit_length]; exact hcov)
        rw [clearBits] at this
        exact this

theorem lookupA_eraseKey_self (k : Nat) (m : List (Nat × Inode)) :
    lookupA k (eraseKey k m) = none := by
  induction m with
  | nil => rfl
  | cons p t ih =>
      by_cases hp : p.1 = k
      · simp [eraseKey, hp, ih]
      · simp [eraseKey, lookupA, hp, ih]

theorem lookupName_removeName_self (n : String) (c : List (String × Nat)) :
    lookupName n (removeName n c) = none := by
  induction c with
  | nil => rfl
  | cons p t ih =>
      by_cases hp : p.1 = n
      · simp [removeName, hp, ih]
      · simp [removeName, lookupName, hp, ih]

theorem save_root_directory_no_grow (enc : List DirectoryEntry → List Nat)
    (now : Nat) (st : FsState) (rootI : Inode)
    (hroot : lookupA st.superblock.root_inode st.inodes = some rootI)
    (hfit : ((enc (dirEntries st)).length + st.superblock.block_size - 1) /
      st.superblock.block_size ≤ rootI.blocks.length) :
    save_root_directory enc now st =
      ({ st with
          inodes := insertA st.superblock.root_inode
            { rootI with
                size := (enc (dirEntries st)).length
                modified_at := now } st.inodes },
       rootI.blocks.map PersistEvent.writeData ++
         [PersistEvent.saveBitmap, PersistEvent.saveInodeTable], true) := by
  have h0 : ((enc (dirEntries st)).length + st.superblock.block_size - 1) /
      st.superblock.block_size - rootI.blocks.length = 0 := by omega
  simp only [save_root_directory, growBlocks, hroot, h0]
  simp [allocMany]

/-- C9: for a name in the directory cache whose inode is in the inode
map, `unlink` clears the bitmap bit of every block in the inode's block
list, removes the inode and the cache entry, and persists the directory
data, then the bitmap, then the inode table (the trace is the directory
block writes followed by bitmap and inode-table saves, twice because the
directory save itself also persists both); `unlink` of an unknown name
returns not-found and leaves the state unchanged; and in the concrete
scenario `stC` a subsequent `allocate_block` returns the block id 5 the
unlinked file used to own. -/
theorem claim_C9_unlink (enc : List DirectoryEntry → List Nat) (now : Nat)
    (st : FsState) (name name2 : String) (fid : Nat) (ino rootI : Inode)
    (st3 : FsState)
    (h1 : lookupName name st.dir_cache = some fid)
    (h2 : lookupA fid st.inodes = some ino)
    (hne : fid ≠ st.superblock.root_inode)
    (hroot : lookupA st.superblock.root_inode st.inodes = some rootI)
    (hfit : ((enc (dirEntries (unlinkPre st name fid ino))).length +
        st.superblock.block_size - 1) / st.superblock.block_size ≤
      rootI.blocks.length)
    (hnb : rootI.blocks ≠ [])
    (hnf : lookupName name2 st3.dir_cache = none) :
    (unlink enc now st name).1 =
      .ok (rootI.blocks.map PersistEvent.writeData ++
        [PersistEvent.saveBitmap, PersistEvent.saveInodeTable,
         PersistEvent.saveBitmap, PersistEvent.saveInodeTable]) ∧
    rootI.blocks.map PersistEvent.writeData ≠ [] ∧
    lookupA fid (unlink enc now st name).2.inodes = none ∧
    lookupName name (unlink enc now st name).2.dir_cache = none ∧
    bitsCleared ino.blocks st.bitmap (unlink enc now st name).2.bitmap =
      true ∧
    unlink enc now st3 name2 = (.error (), st3) ∧
    getBit stC.bitmap 5 = true ∧ 5 ∈ fileC.blocks ∧
    lookupName "a" stC.dir_cache = some 2 ∧
    allocate_block 5 16 (unlink encC 7 stC "a").2.bitmap =
      some (5, [127, 0]) := by
  have hroot1 : lookupA (unlinkPre st name fid ino).superblock.root_inode
      (unlinkPre st name fid ino).inodes = some rootI := by
    show lookupA st.superblock.root_inode
      (removeA fid st.inodes) = some rootI
    rw [removeA, lookupA_eraseKey fid st.superblock.root_inode
      st.inodes hne]
    exact hroot
  have hfit1 : ((enc (dirEntries (unlinkPre st name fid ino))).length +
      (unlinkPre st name fid ino).superblock.block_size - 1) /
        (unlinkPre st name fid ino).superblock.block_size ≤
      rootI.blocks.length := hfit
  have hsave := save_root_directory_no_grow enc now
    (unlinkPre st name fid ino) rootI hroot1 hfit1
  have hunfold : unlink enc now st name =
      (.ok ((rootI.blocks.map PersistEvent.writeData ++
          [PersistEvent.saveBitmap, PersistEvent.saveInodeTable]) ++
        [PersistEvent.saveBitmap, PersistEvent.saveInodeTable]),
       { unlinkPre st name fid ino with
          inodes := insertA
            (unlinkPre st name fid ino).superblock.root_inode
            { rootI with
                size := (enc (dirEntries (unlinkPre st name fid ino))).length
                modified_at := now }
            (unlinkPre st name fid ino).inodes }) := by
    simp only [unlink, h1, h2, hsave]
  refine ⟨?_, ?_, ?_, ?_, ?_, ?_, by decide, by decide, by decide,
    by decide⟩
  · rw [hunfold]
    simp
  · intro hh
    rw [List.map_eq_nil_iff] at hh
    exact hnb hh
  · rw [hunfold]
    show lookupA fid (insertA st.superblock.root_inode _
      (removeA fid st.inodes)) = none
    rw [lookupA_insertA, if_neg (Ne.symm hne), removeA,
      lookupA_eraseKey_self]
  · rw [hunfold]
    show lookupName name (removeName name st.dir_cache) = none
    exact lookupName_removeName_self name st.dir_cache
  · rw [hunfold]
    show bitsCleared ino.blocks st.bitmap
      (clearBits st.bitmap ino.blocks) = true
    simp only [bitsCleared, List.all_eq_true]
    intro b hb
    by_cases hcov : b / 8 < st.bitmap.length
    · have := clearBits_clears ino.blocks st.bitmap b hb hcov
      rw [this]
      simp
    · simp [hcov]
  · rw [unlink, hnf]

theorem claim_C9_unlink_witness :
    (unlink encC 7 stC "a").1 =
      .ok (rootC.blocks.map PersistEvent.writeData ++
        [PersistEvent.saveBitmap, PersistEvent.saveInodeTable,
         PersistEvent.saveBitmap, PersistEvent.saveInodeTable]) ∧
    rootC.blocks.map PersistEvent.writeData ≠ [] ∧
    lookupA 2 (unlink encC 7 stC "a").2.inodes = none ∧
    lookupName "a" (unlink encC 7 stC "a").2.dir_cache = none ∧
    bitsCleared fileC.blocks stC.bitmap (unlink encC 7 stC "a").2.bitmap =
      true ∧
    unlink encC 7 stC "zz" = (.error (), stC) ∧
    getBit stC.bitmap 5 = true ∧ 5 ∈ fileC.blocks ∧
    lookupName "a" stC.dir_cache = some 2 ∧
    allocate_block 5 16 (unlink encC 7 stC "a").2.bitmap =
      some (5, [127, 0]) :=
  claim_C9_unlink encC 7 stC "a" "zz" 2 fileC rootC stC
    (by decide) (by decide) (by decide) (by decide) (by decide)
    (by decide) (by decide)

end Qrfs
